import Mathlib

/-!
Verification of the chess-cards repository's text-processing core.

Strings are modelled as `List Char`. Python functions that can raise are
modelled as `Except (List Char) α`, where the error payload is the
exception's message. Each definition below is a direct translation of a
function in `src/card_utils.py`, `src/cards.py` or `src/duplicate_finder.py`;
the source file and line numbers are noted on each definition.
-/

/-- Equality on `Except` values is decidable when it is decidable on both
components; needed to evaluate closed statements about the modelled
functions by `decide`. -/
instance {ε α : Type} [DecidableEq ε] [DecidableEq α] : DecidableEq (Except ε α) := fun a b =>
  match a, b with
  | Except.ok x, Except.ok y =>
    if h : x = y then isTrue (by rw [h]) else isFalse (by intro hh; cases hh; exact h rfl)
  | Except.ok _, Except.error _ => isFalse (fun hh => Except.noConfusion hh)
  | Except.error _, Except.ok _ => isFalse (fun hh => Except.noConfusion hh)
  | Except.error d, Except.error e =>
    if h : d = e then isTrue (by rw [h]) else isFalse (by intro hh; cases hh; exact h rfl)

/-- A word character for the regex `\w` in `re.findall('\((\w)\)', string)`
(card_utils.py line 77). Modelled for the ASCII range: letters, digits and
underscore. -/
def isWordChar (c : Char) : Bool :=
  c.isAlphanum || c = '_'

/-- The scan performed by `re.findall('\((\w)\)', string)` (card_utils.py
line 77): left-to-right, non-overlapping; at each position either the
three-character pattern `(c)` with `c` a word character matches (the letter
is collected and the scan resumes after the pattern) or the scan advances
one character. -/
def findMarkers : List Char → List Char
  | '(' :: c :: ')' :: rest =>
    if isWordChar c then c :: findMarkers rest
    else findMarkers (c :: ')' :: rest)
  | _ :: rest => findMarkers rest
  | [] => []

/-- Fuelled version of Python's `str.split(sep)` for a non-empty separator:
split at each non-overlapping occurrence of `sep`, scanning left to right.
The fuel only forces termination; `splitOnL` supplies `s.length`, which is
always sufficient. -/
def splitFuel (sep : List Char) : Nat → List Char → List (List Char)
  | _, [] => [[]]
  | 0, s => [s]
  | fuel + 1, c :: rest =>
    if sep.isPrefixOf (c :: rest) then
      [] :: splitFuel sep fuel (List.drop (sep.length - 1) rest)
    else
      List.modifyHead (fun seg => c :: seg) (splitFuel sep fuel rest)

/-- Python's `str.split(sep)` for a non-empty separator `sep`: the list of
segments of `s` between non-overlapping occurrences of `sep`. -/
def splitOnL (sep s : List Char) : List (List Char) :=
  splitFuel sep s.length s

/-- The number of positions of `s` at which the substring `sep` starts.
For separators that cannot overlap themselves (such as `"pre"` and `"(c)"`)
this is exactly the number of occurrences of `sep` in `s`. -/
def occAt (sep : List Char) : List Char → Nat
  | [] => 0
  | c :: rest => (if sep.isPrefixOf (c :: rest) then 1 else 0) + occAt sep rest

/-- The delimiter `"pre"` used by `svg_str_to_board_state` (card_utils.py
line 52). -/
def preL : List Char := ['p', 'r', 'e']

/-- The message of the exception raised by `svg_str_to_board_state`
(card_utils.py lines 53-55): `msg.format(len(L)-1)` where the count is the
number of delimiter occurrences found. -/
def svgErrMsg (n : Nat) : List Char :=
  "Expected to find \"pre\" twice in string, got ".toList ++ Nat.toDigits 10 n

/-- `svg_str_to_board_state` (card_utils.py lines 50-56): split the string
on `"pre"`; if that does not yield exactly three pieces, raise; otherwise
return `L[1][1:-2]` (the middle piece with the first character and the last
two characters removed). -/
def svg_str_to_board_state (s : List Char) : Except (List Char) (List Char) :=
  let L := splitOnL preL s
  if L.length = 3 then
    Except.ok ((((L.getD 1 []).drop 1).dropLast).dropLast)
  else
    Except.error (svgErrMsg (L.length - 1))

/-- The literal separator `'({})'.format(c)` used in the split at marker `c`
(card_utils.py line 86). -/
def markerPat (c : Char) : List Char := ['(', c, ')']

/-- The markup fragment opened at the first list item
(card_utils.py line 93). -/
def olOpen : List Char := "<ol type=\"A\"><li>".toList

/-- The markup fragment separating list items (card_utils.py line 95). -/
def liSep : List Char := "</li><li>".toList

/-- The markup fragment closing the list (card_utils.py line 97). -/
def olClose : List Char := "</li></ol>".toList

/-- The message of the exception raised when the first marker is not `A`
(card_utils.py line 81). -/
def expectedAMsg (m : Char) : List Char :=
  "Expected (A) for first list item, got ".toList ++ [m]

/-- The message of the exception raised when a split at marker `c` does not
produce exactly two pieces (card_utils.py lines 88-89); it names the marker
and the string being split. -/
def splitErrMsg (c : Char) (s : List Char) : List Char :=
  "Unable to split the following string at (".toList ++ [c] ++ "):\n  ".toList ++ s

/-- The loop of `convert_ordered_list_to_html` (card_utils.py lines 85-97):
for the `i`-th marker `c`, split the remaining text at `(c)`; exactly two
pieces are required; the piece before the marker is appended to the output,
followed by the markup fragment selected by the position of `i`, and the
loop continues on the piece after the marker. -/
def olAux (numitems : Nat) : Nat → List Char → List Char → List Char →
    Except (List Char) (List Char)
  | _, [], acc, _ => Except.ok acc
  | i, c :: ms, acc, s =>
    match splitOnL (markerPat c) s with
    | [t0, t1] =>
      let acc2 :=
        if i = 0 then acc ++ t0 ++ olOpen
        else if i < numitems - 1 then acc ++ t0 ++ liSep
        else acc ++ t0 ++ liSep ++ t1 ++ olClose
      olAux numitems (i + 1) ms acc2 t1
    | _ => Except.error (splitErrMsg c s)

/-- `convert_ordered_list_to_html` (card_utils.py lines 66-98; the copy in
cards.py lines 102-134 is identical): collect the lettered markers; with
fewer than two, return the input unchanged; if the first marker is not `A`,
raise; otherwise run the splitting loop. -/
def convert_ordered_list_to_html (s : List Char) : Except (List Char) (List Char) :=
  let found := findMarkers s
  if found.length < 2 then Except.ok s
  else
    match found with
    | [] => Except.ok s
    | m0 :: _ =>
      if m0 = 'A' then olAux found.length 0 found [] s
      else Except.error (expectedAMsg m0)

/-- The sequence of splits the loop of `convert_ordered_list_to_html`
performs succeeds: splitting the remaining text at each successive marker
yields exactly two pieces every time (card_utils.py lines 86-87). -/
def splitsOkB : List Char → List Char → Bool
  | [], _ => true
  | c :: ms, s =>
    match splitOnL (markerPat c) s with
    | [_, t1] => splitsOkB ms t1
    | _ => false

/-- The pair `(tmp[0], tmp[1])` produced at each step of the loop of
`convert_ordered_list_to_html`, collected over all steps (empty list past
the first failing split). -/
def olSegs : List Char → List Char → List (List Char × List Char)
  | [], _ => []
  | c :: ms, s =>
    match splitOnL (markerPat c) s with
    | [t0, t1] => (t0, t1) :: olSegs ms t1
    | _ => []

/-- The list items encoded by the split pairs of every step after the
first: each intermediate step contributes the text before its marker, and
the final step also contributes the text after its marker. -/
def itemsOfSegs : List (List Char × List Char) → List (List Char)
  | [] => []
  | [(t0, t1)] => [t0, t1]
  | (t0, _) :: rest => t0 :: itemsOfSegs rest

/-- Item texts joined with the item separator markup. -/
def joinLi : List (List Char) → List Char
  | [] => []
  | [x] => x
  | x :: xs => x ++ liSep ++ joinLi xs

/-- The markup the loop of `convert_ordered_list_to_html` emits for the
steps after the first, as a function of their split pairs. -/
def tailRender : List (List Char × List Char) → List Char
  | [] => []
  | [(t0, t1)] => t0 ++ liSep ++ t1 ++ olClose
  | (t0, _) :: rest => t0 ++ liSep ++ tailRender rest

/-- An ordered-list structure: a preamble, the opening markup, the item
texts joined by item boundaries, and the closing markup. -/
def assembleOL (pre : List Char) (items : List (List Char)) : List Char :=
  pre ++ olOpen ++ joinLi items ++ olClose

/-- The split pairs produced when `convert_ordered_list_to_html` runs on
`s`. -/
def olSegsOf (s : List Char) : List (List Char × List Char) :=
  olSegs (findMarkers s) s

/-- The preamble (text before the first marker) when
`convert_ordered_list_to_html` runs on `s`. -/
def olPreambleOf (s : List Char) : List Char :=
  ((olSegsOf s).headD ([], [])).1

/-- The list items produced when `convert_ordered_list_to_html` runs on
`s`. -/
def olItemsOf (s : List Char) : List (List Char) :=
  itemsOfSegs ((olSegsOf s).drop 1)

/-- Modelled from the spec: `card_utils.strip_accents` is called from
duplicate_finder.py line 33 but its definition is not under src/. The spec
(section 4.2) says back normalization strips accent/diacritic marks so
that a string containing an accented character compares equal to a string
containing its unaccented ASCII equivalent. The table pairs each accented
Latin character with its unaccented ASCII equivalent. -/
def accent_table : List (Char × Char) :=
  [('à', 'a'), ('á', 'a'), ('â', 'a'), ('ã', 'a'), ('ä', 'a'), ('å', 'a'),
   ('ç', 'c'),
   ('è', 'e'), ('é', 'e'), ('ê', 'e'), ('ë', 'e'),
   ('ì', 'i'), ('í', 'i'), ('î', 'i'), ('ï', 'i'),
   ('ñ', 'n'),
   ('ò', 'o'), ('ó', 'o'), ('ô', 'o'), ('õ', 'o'), ('ö', 'o'),
   ('ù', 'u'), ('ú', 'u'), ('û', 'u'), ('ü', 'u'),
   ('ý', 'y'), ('ÿ', 'y'),
   ('À', 'A'), ('Á', 'A'), ('Â', 'A'), ('Ã', 'A'), ('Ä', 'A'), ('Å', 'A'),
   ('Ç', 'C'),
   ('È', 'E'), ('É', 'E'), ('Ê', 'E'), ('Ë', 'E'),
   ('Ì', 'I'), ('Í', 'I'), ('Î', 'I'), ('Ï', 'I'),
   ('Ñ', 'N'),
   ('Ò', 'O'), ('Ó', 'O'), ('Ô', 'O'), ('Õ', 'O'), ('Ö', 'O'),
   ('Ù', 'U'), ('Ú', 'U'), ('Û', 'U'), ('Ü', 'U'),
   ('Ý', 'Y')]

/-- Modelled from the spec: replace an accented character by its unaccented
ASCII equivalent; any other character is unchanged. -/
def deaccent (c : Char) : Char :=
  (accent_table.lookup c).getD c

/-- Modelled from the spec: `strip_accents` removes accent marks from every
character of the back text (duplicate_finder.py line 33). -/
def strip_accents (s : List Char) : List Char :=
  s.map deaccent

/-- One entry of the puzzle yaml file as read by cards.py lines 258-262:
the four fields the filtering loop inspects; a missing key yields `none`. -/
structure PuzzleRecord where
  fen : Option (List Char)
  solution : Option (List Char)
  description : Option (List Char)
  difficulty : Option (List Char)
  deriving DecidableEq

/-- Python's `'{}'.format(x)` on an optional string: `None` prints as
`"None"`. -/
def optFmt : Option (List Char) → List Char
  | none => "None".toList
  | some s => s

/-- The message of the exception raised for a solution without a fen
(cards.py line 264). -/
def solnNoFenMsg (desc : Option (List Char)) : List Char :=
  "Solution with no fen: ".toList ++ optFmt desc

/-- The message of the exception raised for an unrecognized difficulty
(cards.py line 272). -/
def badDiffMsg (d : List Char) : List Char :=
  "Expected difficulty to be easy/hard, got ".toList ++ d

/-- ASCII lowercasing, modelling Python's `str.lower` on the difficulty
values used by cards.py (`easy`/`hard` and casings thereof). -/
def lowerL (s : List Char) : List Char :=
  s.map Char.toLower

/-- The per-record filtering of the loop of cards.py lines 258-272:
`Except.error m` models a raise with message `m`, `Except.ok false` models
`continue` (the record is skipped with no output), and `Except.ok true`
means the record goes on to card creation. -/
def filterPuzzle (r : PuzzleRecord) : Except (List Char) Bool :=
  if r.solution.isSome && r.fen.isNone then Except.error (solnNoFenMsg r.description)
  else if r.fen.isNone then Except.ok false
  else if r.solution.isNone then Except.ok false
  else
    let diff := match r.difficulty with
      | none => "easy".toList
      | some d => lowerL d
    if diff = "easy".toList ∨ diff = "hard".toList then Except.ok true
    else Except.error (badDiffMsg diff)

/-- `''.join(fields)` over a note's fields (cards.py line 305). -/
def joinFields (fields : List (List Char)) : List Char :=
  fields.foldl (fun acc f => acc ++ f) []

/-- The duplicate test of the card-creation loop (cards.py line 332): a
card is skipped exactly when the concatenation of its rendered front and
back occurs verbatim in the set of joined fields of the existing cards
(cards.py lines 301-306). -/
def cardAlreadyMade (cardSet : List (List Char)) (front back : List Char) : Prop :=
  (front ++ back) ∈ cardSet

instance (cardSet : List (List Char)) (front back : List Char) :
    Decidable (cardAlreadyMade cardSet front back) :=
  inferInstanceAs (Decidable ((front ++ back) ∈ cardSet))

/-- The normalized fingerprint computed by duplicate_finder.py lines 33-35:
the board state extracted from the front and the accent-stripped back. -/
def cardFingerprint (front back : List Char) :
    Except (List Char) (List Char × List Char) :=
  match svg_str_to_board_state front with
  | Except.ok bs => Except.ok (bs, strip_accents back)
  | Except.error e => Except.error e

/-- Segments joined back with the separator between them; the inverse of
`splitOnL`. -/
def joinSep (sep : List Char) : List (List Char) → List Char
  | [] => []
  | [x] => x
  | x :: xs => x ++ sep ++ joinSep sep xs

theorem splitFuel_ne_nil (sep : List Char) : ∀ (fuel : Nat) (s : List Char),
    splitFuel sep fuel s ≠ []
  | fuel, [] => by simp [splitFuel]
  | 0, c :: rest => by simp [splitFuel]
  | fuel + 1, c :: rest => by
    simp only [splitFuel]
    split
    · simp
    · have ih := splitFuel_ne_nil sep fuel rest
      cases h : splitFuel sep fuel rest with
      | nil => exact absurd h ih
      | cons a l => simp [List.modifyHead]

theorem splitFuel_congr (sep : List Char) : ∀ (f g : Nat) (s : List Char),
    s.length ≤ f → s.length ≤ g → splitFuel sep f s = splitFuel sep g s := by
  intro f
  induction f with
  | zero =>
    intro g s hf hg
    have hs : s = [] := by cases s <;> simp_all
    subst hs
    cases g <;> simp [splitFuel]
  | succ f ih =>
    intro g s hf hg
    cases s with
    | nil => cases g <;> simp [splitFuel]
    | cons c rest =>
      cases g with
      | zero => simp at hg
      | succ g =>
        simp only [splitFuel]
        simp only [List.length_cons] at hf hg
        split
        · have h1 : (List.drop (sep.length - 1) rest).length ≤ f := by
            simp [List.length_drop]; omega
          have h2 : (List.drop (sep.length - 1) rest).length ≤ g := by
            simp [List.length_drop]; omega
          rw [ih g _ h1 h2]
        · rw [ih g rest (by omega) (by omega)]

theorem splitOnL_nil (sep : List Char) : splitOnL sep [] = [[]] := rfl

theorem splitOnL_cons (sep : List Char) (c : Char) (rest : List Char) :
    splitOnL sep (c :: rest) =
      if sep.isPrefixOf (c :: rest) then
        [] :: splitOnL sep (List.drop (sep.length - 1) rest)
      else
        List.modifyHead (fun seg => c :: seg) (splitOnL sep rest) := by
  show splitFuel sep (c :: rest).length (c :: rest) = _
  simp only [List.length_cons, splitFuel]
  split
  · have h1 : (List.drop (sep.length - 1) rest).length ≤ rest.length := by
      simp [List.length_drop]
    exact congrArg (List.cons [])
      (splitFuel_congr sep rest.length _ _ h1 (le_refl _))
  · rfl

theorem splitOnL_ne_nil (sep s : List Char) : splitOnL sep s ≠ [] :=
  splitFuel_ne_nil sep s.length s

theorem splitOnL_of_occAt_zero (sep : List Char) : ∀ s : List Char,
    occAt sep s = 0 → splitOnL sep s = [s]
  | [], _ => splitOnL_nil sep
  | c :: rest, h => by
    rw [occAt] at h
    by_cases hp : sep.isPrefixOf (c :: rest)
    · simp [hp] at h
    · simp only [hp, if_false, Bool.false_eq_true, Nat.zero_add] at h
      rw [splitOnL_cons]
      simp [hp, splitOnL_of_occAt_zero sep rest h, List.modifyHead]

theorem joinSep_splitOnL (sep : List Char) (hsep : sep ≠ []) : ∀ s : List Char,
    joinSep sep (splitOnL sep s) = s
  | [] => by simp [splitOnL_nil, joinSep]
  | c :: rest => by
    rw [splitOnL_cons]
    by_cases hp : sep.isPrefixOf (c :: rest)
    · obtain ⟨t, ht⟩ : ∃ t, sep ++ t = c :: rest := List.isPrefixOf_iff_prefix.mp hp
      have hlen : t.length < (c :: rest).length := by
        rw [← ht]
        cases sep with
        | nil => exact absurd rfl hsep
        | cons s0 sep' =>
          simp only [List.length_cons, List.length_append]
          omega
      have hdrop : List.drop (sep.length - 1) rest = t := by
        cases sep with
        | nil => exact absurd rfl hsep
        | cons s0 sep' =>
          have hrest : sep' ++ t = rest := by
            have h2 := ht
            simp only [List.cons_append, List.cons.injEq] at h2
            exact h2.2
          simp only [List.length_cons, Nat.add_sub_cancel, ← hrest]
          exact List.drop_left sep' t
      simp only [hp, if_true, hdrop]
      have ih := joinSep_splitOnL sep hsep t
      cases hL : splitOnL sep t with
      | nil => exact absurd hL (splitOnL_ne_nil sep t)
      | cons seg segs =>
        rw [hL] at ih
        show joinSep sep ([] :: seg :: segs) = c :: rest
        simp only [joinSep, List.nil_append]
        rw [ih]
        exact ht
    · simp only [hp, Bool.false_eq_true, if_false]
      cases hL : splitOnL sep rest with
      | nil => exact absurd hL (splitOnL_ne_nil sep rest)
      | cons seg segs =>
        have ih := joinSep_splitOnL sep hsep rest
        rw [hL] at ih
        simp only [List.modifyHead]
        cases segs with
        | nil =>
          simp only [joinSep] at ih ⊢
          rw [ih]
        | cons sg2 sgs =>
          simp only [joinSep] at ih ⊢
          rw [← ih]
          simp [List.cons_append, List.append_assoc]
  termination_by s => s.length
  decreasing_by
  · exact hlen
  · simp only [List.length_cons]
    omega

theorem length_splitOnL_pre : ∀ s : List Char,
    (splitOnL preL s).length = occAt preL s + 1
  | [] => by simp [splitOnL_nil, occAt]
  | c :: rest => by
    by_cases hp : preL.isPrefixOf (c :: rest)
    · obtain ⟨t, ht⟩ : ∃ t, preL ++ t = c :: rest := List.isPrefixOf_iff_prefix.mp hp
      have h2 := ht
      simp only [preL, List.cons_append, List.nil_append, List.cons.injEq] at h2
      obtain ⟨hc, hrest⟩ := h2
      subst hc
      subst hrest
      rw [splitOnL_cons]
      have hb1 : ('p' == 'r') = false := by decide
      have hb2 : ('p' == 'e') = false := by decide
      have hpre2 : preL.isPrefixOf ('r' :: 'e' :: t) = false := by
        simp [preL, List.isPrefixOf, hb1]
      have hpre3 : preL.isPrefixOf ('e' :: t) = false := by
        simp [preL, List.isPrefixOf, hb2]
      have hdrop : List.drop (preL.length - 1) ('r' :: 'e' :: t) = t := by
        simp [preL]
      simp only [hp, if_true, hdrop, List.length_cons]
      rw [length_splitOnL_pre t]
      rw [occAt, occAt, occAt]
      simp only [hp, hpre2, hpre3, Bool.false_eq_true, if_true, if_false]
      omega
    · rw [splitOnL_cons]
      simp only [hp, Bool.false_eq_true, if_false, List.length_modifyHead]
      rw [length_splitOnL_pre rest]
      rw [occAt]
      simp [hp]
  termination_by s => s.length
  decreasing_by
  · have hl := congrArg List.length hrest
    simp only [List.length_cons] at hl
    simp only [List.length_cons]
    omega
  · simp only [List.length_cons]
    omega

/-- C7: `svg_str_to_board_state` raises exactly when the delimiter `"pre"`
occurs a number of times other than two in the input, and the raised
message reports the actual occurrence count. -/
theorem C7_error_iff_count (s : List Char) :
    ((∃ e, svg_str_to_board_state s = Except.error e) ↔ occAt preL s ≠ 2) ∧
    (∀ e, svg_str_to_board_state s = Except.error e → e = svgErrMsg (occAt preL s)) := by
  have hlen := length_splitOnL_pre s
  unfold svg_str_to_board_state
  by_cases h3 : (splitOnL preL s).length = 3
  · simp only [h3, if_true]
    constructor
    · constructor
      · rintro ⟨e, he⟩
        exact absurd he (by simp)
      · intro hocc
        exact absurd (by omega) hocc
    · intro e he
      simp at he
  · simp only [h3, if_false]
    constructor
    · constructor
      · intro _
        omega
      · intro _
        exact ⟨_, rfl⟩
    · intro e he
      simp only [Except.error.injEq] at he
      rw [← he]
      congr 1
      omega

/-- Witness for C7 at a front text in which `"pre"` occurs three times. -/
theorem C7_witness :
    (∃ e, svg_str_to_board_state "xpreypreZprew".toList = Except.error e) ∧
      occAt preL "xpreypreZprew".toList ≠ 2 :=
  ⟨(C7_error_iff_count "xpreypreZprew".toList).1.mpr (by decide), by decide⟩

/-- C3 counterexample: on a front text in which `"pre"` occurs exactly
twice with `"XYZW"` strictly between the two occurrences, the function
returns `"Y"`, not the claimed `"YZW"` (one leading character removed and
nothing else): two trailing characters are removed as well. -/
theorem C3_counterexample :
    svg_str_to_board_state "apreXYZWpreb".toList = Except.ok ['Y'] ∧
      (['Y'] : List Char) ≠ "YZW".toList := by decide

/-- C3 amended: when `"pre"` occurs exactly twice (the split yields three
pieces `a`, `m`, `b`, so that the input is `a ++ "pre" ++ m ++ "pre" ++ b`
and `m` is the substring strictly between the two occurrences),
`svg_str_to_board_state` returns `m` with exactly one leading character
and two trailing characters removed. -/
theorem C3_amended (s a m b : List Char) (h : splitOnL preL s = [a, m, b]) :
    svg_str_to_board_state s = Except.ok (((m.drop 1).dropLast).dropLast) ∧
      s = a ++ preL ++ m ++ preL ++ b := by
  constructor
  · unfold svg_str_to_board_state
    simp [h, List.getD]
  · have hj := joinSep_splitOnL preL (by simp [preL]) s
    rw [h] at hj
    simp only [joinSep] at hj
    rw [← hj]
    simp [List.append_assoc]

/-- Witness for C3 at a concrete front text with two delimiter
occurrences. -/
theorem C3_witness :
    svg_str_to_board_state "apreXYZWpreb".toList = Except.ok ['Y'] ∧
      "apreXYZWpreb".toList =
        "a".toList ++ preL ++ "XYZW".toList ++ preL ++ "b".toList := by
  have h := C3_amended "apreXYZWpreb".toList "a".toList "XYZW".toList "b".toList (by decide)
  exact ⟨h.1.trans (by decide), h.2⟩

/-- C6: with fewer than two lettered markers found,
`convert_ordered_list_to_html` returns its input unchanged and raises no
exception. -/
theorem C6_few_markers_unchanged (s : List Char)
    (h : (findMarkers s).length < 2) :
    convert_ordered_list_to_html s = Except.ok s := by
  unfold convert_ordered_list_to_html
  simp [h]

/-- Witness for C6 at a string with exactly one marker. -/
theorem C6_witness :
    convert_ordered_list_to_html "(A) lone item".toList =
      Except.ok "(A) lone item".toList :=
  C6_few_markers_unchanged "(A) lone item".toList (by decide)

/-- C9: with at least two markers found and the first one different from
`A`, `convert_ordered_list_to_html` raises, with the message naming the
offending first marker. -/
theorem C9_first_marker_not_A (s : List Char) (m : Char) (ms : List Char)
    (hm : findMarkers s = m :: ms) (hms : ms ≠ []) (hA : m ≠ 'A') :
    convert_ordered_list_to_html s = Except.error (expectedAMsg m) := by
  have hlen : ¬ ((m :: ms).length < 2) := by
    cases ms with
    | nil => exact absurd rfl hms
    | cons x xs =>
      simp only [List.length_cons]
      omega
  unfold convert_ordered_list_to_html
  simp only [hm, hlen, if_false]
  simp [hA]

/-- Witness for C9 at the input named by the claim. -/
theorem C9_witness :
    convert_ordered_list_to_html "(B) foo (A) bar".toList =
      Except.error (expectedAMsg 'B') :=
  C9_first_marker_not_A "(B) foo (A) bar".toList 'B' ['A'] (by decide) (by decide)
    (by decide)

/-- C8: in the splitting loop of `convert_ordered_list_to_html`, when the
marker to be split at does not occur in the remaining text, the loop
raises, and the message names the marker and the string being split. -/
theorem C8_missing_marker (numitems i : Nat) (c : Char) (ms acc s : List Char)
    (h : occAt (markerPat c) s = 0) :
    olAux numitems i (c :: ms) acc s = Except.error (splitErrMsg c s) := by
  have hs := splitOnL_of_occAt_zero (markerPat c) s h
  simp [olAux, hs]

/-- Witness for C8: splitting at marker `B` in a text that does not
contain `(B)`. -/
theorem C8_witness :
    olAux 2 1 ['B'] [] "nothing to see".toList =
      Except.error (splitErrMsg 'B' "nothing to see".toList) :=
  C8_missing_marker 2 1 'B' [] [] "nothing to see".toList (by decide)

theorem lookup_mem : ∀ (l : List (Char × Char)) (c a : Char),
    l.lookup c = some a → (c, a) ∈ l
  | [], c, a, h => by simp [List.lookup] at h
  | (k, v) :: rest, c, a, h => by
    rw [List.lookup] at h
    by_cases hk : (c == k) = true
    · simp only [hk] at h
      obtain rfl : v = a := by simpa using h
      obtain rfl : c = k := by simpa using hk
      exact List.mem_cons_self _ _
    · simp only [Bool.not_eq_true] at hk
      simp only [hk] at h
      exact List.mem_cons_of_mem _ (lookup_mem rest c a h)

theorem deaccent_fixed (c a : Char) (h : accent_table.lookup c = some a) :
    deaccent a = a := by
  have hmem : (c, a) ∈ accent_table := lookup_mem accent_table c a h
  have hall : ∀ p ∈ accent_table, deaccent p.2 = p.2 := by decide
  exact hall (c, a) hmem

/-- C5: back-text normalization strips accents: `"café"` and `"cafe"`
normalize to the same back component, and in general replacing an accented
character by its unaccented ASCII equivalent anywhere in a string does not
change the normalized result. -/
theorem C5_accent_equiv :
    strip_accents "café".toList = strip_accents "cafe".toList ∧
    ∀ (p t : List Char) (c a : Char), accent_table.lookup c = some a →
      strip_accents (p ++ c :: t) = strip_accents (p ++ a :: t) := by
  refine ⟨by decide, ?_⟩
  intro p t c a h
  have h1 : deaccent c = a := by simp [deaccent, h]
  have h2 : deaccent a = a := deaccent_fixed c a h
  simp [strip_accents, h1, h2]

/-- Witness for C5 at the accented character of `"café"`. -/
theorem C5_witness :
    strip_accents ("caf".toList ++ 'é' :: []) = strip_accents ("caf".toList ++ 'e' :: []) :=
  C5_accent_equiv.2 "caf".toList [] 'é' 'e' (by decide)

/-- C4 counterexample: a record with a position but no solution is
silently skipped (`Except.ok false` models `continue`, which produces no
warning or other output), not flagged with a warning; and a record with a
solution but no position raises a `ValueError` that aborts the run, which
is not a warning either. -/
theorem C4_counterexample :
    filterPuzzle ⟨some "4k3/8/8/8/8/8/8/4K3 w - - 0 1".toList, none, none, none⟩ =
        Except.ok false ∧
      filterPuzzle ⟨none, some "Qh5#".toList, none, some "easy".toList⟩ =
        Except.error (solnNoFenMsg none) := by decide

/-- C4 amended: a record missing the position or the solution is never
processed; one with a solution but no position raises an error (fatal to
the run), and one with a position but no solution is silently skipped
without any warning. -/
theorem C4_amended (r : PuzzleRecord) (h : r.fen = none ∨ r.solution = none) :
    filterPuzzle r ≠ Except.ok true ∧
    (r.fen = none → r.solution = none → filterPuzzle r = Except.ok false) ∧
    (r.fen = none → ∀ sol, r.solution = some sol →
      filterPuzzle r = Except.error (solnNoFenMsg r.description)) ∧
    (r.solution = none → ∀ f, r.fen = some f → filterPuzzle r = Except.ok false) := by
  obtain ⟨fen, sol, desc, diff⟩ := r
  cases fen <;> cases sol <;> simp_all [filterPuzzle]

/-- Witness for C4: a concrete record with a position and no solution is
silently skipped. -/
theorem C4_witness :
    filterPuzzle ⟨some "4k3/8/8/8/8/8/8/4K3 w - - 0 1".toList, none, none, none⟩ =
      Except.ok false :=
  (C4_amended ⟨some "4k3/8/8/8/8/8/8/4K3 w - - 0 1".toList, none, none, none⟩
    (Or.inr rfl)).2.2.2 rfl "4k3/8/8/8/8/8/8/4K3 w - - 0 1".toList rfl

/-- C1 counterexample: two cards whose fronts are textually different but
have the same board state between the delimiters, and identical backs, so
their normalized fingerprints coincide; with the first card's joined
fields in the deck's card set, the batch loop's duplicate test does not
flag the second card, so it is inserted rather than skipped. -/
theorem C1_counterexample :
    svg_str_to_board_state "XpreQabcQpreY".toList =
        svg_str_to_board_state "ZpreQabcQpreW".toList ∧
      "XpreQabcQpreY".toList ≠ "ZpreQabcQpreW".toList ∧
      cardFingerprint "XpreQabcQpreY".toList "mate in two".toList =
        cardFingerprint "ZpreQabcQpreW".toList "mate in two".toList ∧
      ¬ cardAlreadyMade [joinFields ["XpreQabcQpreY".toList, "mate in two".toList]]
        "ZpreQabcQpreW".toList "mate in two".toList := by decide

/-- C1 amended: the batch card-creation loop deduplicates by exact
equality of the raw concatenated front and back against the joined fields
of existing cards; a second record whose raw text differs from the first
is inserted even when their normalized fingerprints (board state,
accent-stripped back) are identical. -/
theorem C1_amended (cs : List (List Char)) (f1 b1 f2 b2 : List Char)
    (_hfp : cardFingerprint f1 b1 = cardFingerprint f2 b2)
    (hne : f1 ++ b1 ≠ f2 ++ b2) (hnotin : ¬ cardAlreadyMade cs f2 b2) :
    ¬ cardAlreadyMade (joinFields [f1, b1] :: cs) f2 b2 := by
  unfold cardAlreadyMade at hnotin ⊢
  intro hmem
  rcases List.mem_cons.mp hmem with hh | hh
  · apply hne
    have hjf : joinFields [f1, b1] = f1 ++ b1 := by simp [joinFields]
    rw [hjf] at hh
    exact hh.symm
  · exact hnotin hh

/-- Witness for C1 at the two concrete cards of the counterexample. -/
theorem C1_witness :
    ¬ cardAlreadyMade [joinFields ["XpreQabcQpreY".toList, "mate in two".toList]]
      "ZpreQabcQpreW".toList "mate in two".toList :=
  C1_amended [] "XpreQabcQpreY".toList "mate in two".toList "ZpreQabcQpreW".toList
    "mate in two".toList (by decide) (by decide) (by decide)

/-- C2 counterexample: on `"(A) foo (B) bar (C) baz"` the transformer does
not produce the ordered list with items `"foo "`, `"bar "`, `"baz"`: the
items it produces keep the space that follows each marker. -/
theorem C2_counterexample :
    convert_ordered_list_to_html "(A) foo (B) bar (C) baz".toList ≠
      Except.ok (assembleOL [] ["foo ".toList, "bar ".toList, "baz".toList]) := by decide

/-- C2 amended: on `"(A) foo (B) bar (C) baz"` the transformer returns an
ordered list with the items `" foo "`, `" bar "`, `" baz"` (verbatim,
including the leading space left after each marker is removed). -/
theorem C2_amended :
    convert_ordered_list_to_html "(A) foo (B) bar (C) baz".toList =
      Except.ok (assembleOL [] [" foo ".toList, " bar ".toList, " baz".toList]) := by
  decide

theorem olSegs_length : ∀ (ms s : List Char), splitsOkB ms s = true →
    (olSegs ms s).length = ms.length
  | [], _, _ => rfl
  | c :: ms, s, h => by
    cases hL : splitOnL (markerPat c) s with
    | nil => simp [splitsOkB, hL] at h
    | cons t0 r2 =>
      cases r2 with
      | nil => simp [splitsOkB, hL] at h
      | cons t1 r3 =>
        cases r3 with
        | cons u us => simp [splitsOkB, hL] at h
        | nil =>
          have h' : splitsOkB ms t1 = true := by
            simp only [splitsOkB, hL] at h
            exact h
          simp only [olSegs, hL, List.length_cons]
          rw [olSegs_length ms t1 h']

theorem itemsOfSegs_length : ∀ segs : List (List Char × List Char), segs ≠ [] →
    (itemsOfSegs segs).length = segs.length + 1
  | [], h => absurd rfl h
  | [(_, _)], _ => rfl
  | (_, _) :: p :: rest, _ => by
    simp only [itemsOfSegs, List.length_cons]
    rw [itemsOfSegs_length (p :: rest) (by simp)]
    simp [List.length_cons]

theorem itemsOfSegs_ne_nil : ∀ (p : List Char × List Char)
    (segs : List (List Char × List Char)), itemsOfSegs (p :: segs) ≠ []
  | (_, _), [] => by simp [itemsOfSegs]
  | (_, _), q :: rest => by simp [itemsOfSegs]

theorem tailRender_eq_joinLi : ∀ segs : List (List Char × List Char), segs ≠ [] →
    tailRender segs = joinLi (itemsOfSegs segs) ++ olClose
  | [], h => absurd rfl h
  | [(t0, t1)], _ => by simp [tailRender, itemsOfSegs, joinLi, List.append_assoc]
  | (t0, u) :: p :: rest, _ => by
    simp only [tailRender, itemsOfSegs]
    rw [tailRender_eq_joinLi (p :: rest) (by simp)]
    cases hI : itemsOfSegs (p :: rest) with
    | nil => exact absurd hI (itemsOfSegs_ne_nil p rest)
    | cons x xs =>
      simp [joinLi, List.append_assoc]

theorem olSegs_cons (c : Char) (ms s t0 t1 : List Char)
    (hL : splitOnL (markerPat c) s = [t0, t1]) :
    olSegs (c :: ms) s = (t0, t1) :: olSegs ms t1 := by
  rw [olSegs, hL]

theorem olAux_cons (n i : Nat) (c : Char) (ms acc s t0 t1 : List Char)
    (hL : splitOnL (markerPat c) s = [t0, t1]) :
    olAux n i (c :: ms) acc s =
      olAux n (i + 1) ms
        (if i = 0 then acc ++ t0 ++ olOpen
         else if i < n - 1 then acc ++ t0 ++ liSep
         else acc ++ t0 ++ liSep ++ t1 ++ olClose) t1 := by
  rw [olAux, hL]

theorem olAux_shape : ∀ (ms : List Char) (c : Char) (s acc : List Char) (n i : Nat),
    1 ≤ i → i + (c :: ms).length = n → splitsOkB (c :: ms) s = true →
    olAux n i (c :: ms) acc s = Except.ok (acc ++ tailRender (olSegs (c :: ms) s))
  | ms, c, s, acc, n, i, hi, hn, hok => by
    cases hL : splitOnL (markerPat c) s with
    | nil => simp [splitsOkB, hL] at hok
    | cons t0 r2 =>
      cases r2 with
      | nil => simp [splitsOkB, hL] at hok
      | cons t1 r3 =>
        cases r3 with
        | cons u us => simp [splitsOkB, hL] at hok
        | nil =>
          have hok' : splitsOkB ms t1 = true := by
            simp only [splitsOkB, hL] at hok
            exact hok
          have hi0 : ¬ (i = 0) := by omega
          rw [olAux_cons n i c ms acc s t0 t1 hL]
          rw [olSegs_cons c ms s t0 t1 hL]
          simp only [hi0, if_false]
          cases ms with
          | nil =>
            have hn2 : i + 1 = n := by simpa using hn
            have hcond : ¬ (i < n - 1) := by omega
            simp only [hcond, if_false]
            simp only [olAux, olSegs, tailRender]
            simp [List.append_assoc]
          | cons c2 ms2 =>
            have hn2 : i + ms2.length + 2 = n := by
              simp only [List.length_cons] at hn
              omega
            have hcond : i < n - 1 := by omega
            simp only [hcond, if_true]
            rw [olAux_shape ms2 c2 t1 (acc ++ t0 ++ liSep) n (i + 1) (by omega)
              (by simp only [List.length_cons]; omega) hok']
            have hne : olSegs (c2 :: ms2) t1 ≠ [] := by
              intro hnil
              have hlen2 := olSegs_length (c2 :: ms2) t1 hok'
              rw [hnil] at hlen2
              simp at hlen2
            cases hS : olSegs (c2 :: ms2) t1 with
            | nil => exact absurd hS hne
            | cons sg sgs =>
              simp only [tailRender]
              simp [List.append_assoc]

/-- C10: `convert_ordered_list_to_html` never checks markers after the
first for alphabetic order: whenever at least two markers are found, the
first is `A`, and each successive split yields exactly two pieces, the
function succeeds and returns an ordered-list structure with exactly one
item per marker, regardless of which letters the later markers carry. -/
theorem C10_no_order_check (s : List Char) (m2 : Char) (ms : List Char)
    (hm : findMarkers s = 'A' :: m2 :: ms)
    (hok : splitsOkB ('A' :: m2 :: ms) s = true) :
    convert_ordered_list_to_html s =
        Except.ok (assembleOL (olPreambleOf s) (olItemsOf s)) ∧
      (olItemsOf s).length = (findMarkers s).length := by
  cases hL : splitOnL (markerPat 'A') s with
  | nil => simp [splitsOkB, hL] at hok
  | cons t0 r2 =>
    cases r2 with
    | nil => simp [splitsOkB, hL] at hok
    | cons t1 r3 =>
      cases r3 with
      | cons u us => simp [splitsOkB, hL] at hok
      | nil =>
        have hok' : splitsOkB (m2 :: ms) t1 = true := by
          simp only [splitsOkB, hL] at hok
          exact hok
        have hsegs : olSegsOf s = (t0, t1) :: olSegs (m2 :: ms) t1 := by
          unfold olSegsOf
          rw [hm, olSegs_cons 'A' (m2 :: ms) s t0 t1 hL]
        have hne : olSegs (m2 :: ms) t1 ≠ [] := by
          intro hnil
          have hlen2 := olSegs_length (m2 :: ms) t1 hok'
          rw [hnil] at hlen2
          simp at hlen2
        constructor
        · have hlenlt : ¬ (('A' :: m2 :: ms).length < 2) := by
            simp only [List.length_cons]
            omega
          unfold convert_ordered_list_to_html
          simp only [hm, hlenlt, if_false, if_true]
          rw [olAux_cons ('A' :: m2 :: ms).length 0 'A' (m2 :: ms) [] s t0 t1 hL,
            if_pos rfl]
          rw [olAux_shape ms m2 t1 ([] ++ t0 ++ olOpen) ('A' :: m2 :: ms).length 1
            (le_refl 1) (by simp only [List.length_cons]; omega) hok']
          rw [tailRender_eq_joinLi (olSegs (m2 :: ms) t1) hne]
          simp only [assembleOL, olPreambleOf, olItemsOf, hsegs, List.headD,
            List.drop_one, List.tail_cons]
          simp [List.append_assoc]
        · have hlen2 := olSegs_length (m2 :: ms) t1 hok'
          simp only [olItemsOf, hsegs, List.drop_one, List.tail_cons]
          cases hS : olSegs (m2 :: ms) t1 with
          | nil => exact absurd hS hne
          | cons sg sgs =>
            rw [itemsOfSegs_length (sg :: sgs) (by simp)]
            rw [hS] at hlen2
            simp only [hm, List.length_cons] at hlen2 ⊢
            omega

/-- Witness for C10 at `"(A) x (C) y"`: the second marker skips letter `B`
and the call still succeeds with two items. -/
theorem C10_witness :
    convert_ordered_list_to_html "(A) x (C) y".toList =
        Except.ok (assembleOL (olPreambleOf "(A) x (C) y".toList)
          (olItemsOf "(A) x (C) y".toList)) ∧
      (olItemsOf "(A) x (C) y".toList).length =
        (findMarkers "(A) x (C) y".toList).length :=
  C10_no_order_check "(A) x (C) y".toList 'C' [] (by decide) (by decide)

